import Mathlib

/-!
Verification of `swarm/assemble-dna.py`: the DNA assembler that concatenates
named text fragments, substitutes `\x7b\x7bVARIABLE\x7d\x7d` placeholders, and writes one
document per role (queen, architect, worker, and one worker per
specialization).

Modelling conventions.
* Text is `List Char`; `strL` converts a Lean string literal.
* The Fragment Store (directory `components/`) is a function
  `List Char → Option (List Char)`: `none` means the file is absent.
* The Specialization Store (directory `specializations/`) is a function
  `List Char → Option Yaml`, where `Yaml.dict` models a YAML mapping whose
  scalar values are modelled by their Python `str()` rendering, and
  `Yaml.null` models `yaml.safe_load` returning `None` (as it does for a
  present-but-empty YAML file).
* `datetime.now().isoformat()` is modelled as an explicit parameter `ts`.
* Python's `str.replace` is modelled by a fuel-indexed left-to-right scanner
  (`replaceAllAux`); the fuel `s.length` bounds the number of scan steps, each
  of which consumes at least one character, so the fuel never runs out on a
  non-empty pattern.  The empty-pattern case is unreachable: every pattern
  used is `"\x7b\x7b" ++ key ++ "\x7d\x7d"`, which is never empty.
* A raised Python exception is modelled with `Except PyErr` /
  `Option PyErr`; `PyErr.attributeError` is the `AttributeError` raised by
  `None.get`, `PyErr.ioError` an `OSError` from `Path.write_text`.
  `print` calls and `mkdir` are ignored (pure logging / directory setup).
-/

/-- Characters of a string literal. -/
def strL (s : String) : List Char := s.data

/-- The left-brace character. -/
def lb : Char := '\x7b'

/-- The right-brace character. -/
def rb : Char := '\x7d'

/-- `f"\x7b\x7b\x7b\x7b\x7bkey\x7d\x7d\x7d\x7d\x7d"` (line 35 of the source): the literal placeholder
`\x7b\x7bkey\x7d\x7d` searched for by `substitute_variables`. -/
def placeholder (key : List Char) : List Char := lb :: lb :: (key ++ [rb, rb])

/-- One left-to-right scan of Python's `str.replace(pat, rep)`: at each
position, if `pat` matches, emit `rep` and skip past the match, otherwise
copy one character.  `fuel` bounds the number of steps; each step consumes at
least one character of `s`, so `fuel = s.length` suffices (see
`replaceAllAux_fuel`). -/
def replaceAllAux : Nat → List Char → List Char → List Char → List Char
  | 0, _, _, s => s
  | _ + 1, _, _, [] => []
  | n + 1, pat, rep, c :: rest =>
    if pat <+: (c :: rest) then
      rep ++ replaceAllAux n pat rep ((c :: rest).drop pat.length)
    else
      c :: replaceAllAux n pat rep rest

/-- Python `s.replace(pat, rep)` for a non-empty `pat` (the only way the
source calls it; a placeholder has at least four characters). -/
def replaceAll (pat rep s : List Char) : List Char :=
  if pat = [] then s else replaceAllAux s.length pat rep s

/-- `substitute_variables` (lines 32-37): iterate over the variable mapping
in insertion order and run one `str.replace` pass per key.  The values are
already the `str()` renderings of the Python values. -/
def substitute_variables (content : List Char) (vars : List (List Char × List Char)) : List Char :=
  vars.foldl (fun c kv => replaceAll (placeholder kv.1) kv.2 c) content

/-- Python `sep.join(l)`. -/
def pyJoin (sep : List Char) : List (List Char) → List Char
  | [] => []
  | [x] => x
  | x :: y :: ys => x ++ sep ++ pyJoin sep (y :: ys)

/-- The greedy decomposition of `s` at occurrences of `pat`, mirroring the
scan of `replaceAllAux` step for step: `replaceAllAux n pat rep s`
is `pyJoin rep (splitOnAux n pat s)` for every `rep` (see
`replaceAllAux_eq_join`).  Used to analyse single substitution passes; not
part of the embedded program. -/
def splitOnAux : Nat → List Char → List Char → List (List Char)
  | 0, _, s => [s]
  | _ + 1, _, [] => [[]]
  | n + 1, pat, c :: rest =>
    if pat <+: (c :: rest) then
      [] :: splitOnAux n pat ((c :: rest).drop pat.length)
    else
      match splitOnAux n pat rest with
      | [] => [[c]]
      | t :: ts => (c :: t) :: ts

/-- Greedy split of `s` at occurrences of a non-empty `pat`. -/
def splitOnL (pat s : List Char) : List (List Char) := splitOnAux s.length pat s

/-- A text with no brace characters — the shape of every placeholder key the
program actually uses (identifier-like names such as `AGENT_TYPE`). -/
@[reducible] def braceFree (k : List Char) : Prop := lb ∉ k ∧ rb ∉ k

/- ## The assembler -/

/-- Errors a run of the script can raise. -/
inductive PyErr where
  | attributeError : PyErr
  | ioError : PyErr
deriving DecidableEq, Repr

/-- Result of `yaml.safe_load` on a specialization file: a mapping (values
modelled by their `str()` rendering), or `None` — what `safe_load` returns
for an empty YAML document. -/
inductive Yaml where
  | dict : List (List Char × List Char) → Yaml
  | null : Yaml

/-- The Fragment Store: contents of `components/<name>.md`, `none` if the
file does not exist. -/
def FragStore : Type := List Char → Option (List Char)

/-- The Specialization Store: parse of `specializations/<name>.yaml`, `none`
if the file does not exist. -/
def SpecStore : Type := List Char → Option Yaml

/-- `load_component` (lines 17-22): the file's text, or `""` when absent. -/
def load_component (store : FragStore) (name : List Char) : List Char :=
  (store name).getD []

/-- `load_specialization` (lines 24-30): the parsed YAML, or `\x7b\x7d` when the
file is absent. -/
def load_specialization (store : SpecStore) (name : List Char) : Yaml :=
  (store name).getD (Yaml.dict [])

/-- Python `spec_data.get(key, default)`: on a dict, the stored value or the
default; on `None`, an `AttributeError` (`None` has no attribute `get`). -/
def yget (sd : Yaml) (key dflt : List Char) : Except PyErr (List Char) :=
  match sd with
  | Yaml.dict d => Except.ok (((d.find? (fun kv => kv.1 = key)).map Prod.snd).getD dflt)
  | Yaml.null => Except.error PyErr.attributeError

/-- The four `spec_data.get` calls of `assemble_worker_dna` (lines 109-115),
in the order Python evaluates them: description, details, focus_areas,
key_patterns. -/
def specValues (sd : Yaml) : Except PyErr (List Char × List Char × List Char × List Char) := do
  let dsc ← yget sd (strL "description") (strL "general implementation")
  let det ← yget sd (strL "details") []
  let foc ← yget sd (strL "focus_areas") []
  let pat ← yget sd (strL "key_patterns") []
  pure (dsc, det, foc, pat)

/-- The fixed closing section appended at line 131 of the source. -/
def protocolRef : List Char :=
  strL "\n## SWARM PROTOCOL\n\nFollow the swarm protocol defined in `swarm/component/protocol.md` for task management, workspace isolation, and coordination rules."

/-- The `sections` list built by the loop of `_assemble_dna` (lines 124-128):
load each component, keep the ones with non-empty content (Python
truthiness of `content`), and substitute variables in the kept ones. -/
def sectionsOf (store : FragStore) (components : List (List Char)) (vars : List (List Char × List Char)) : List (List Char) :=
  ((components.map (load_component store)).filter (fun c => !c.isEmpty)).map
    (fun c => substitute_variables c vars)

/-- `_assemble_dna` (lines 118-133): the kept substituted sections plus the
closing section, joined by `"\n\n"`. -/
def _assemble_dna (store : FragStore) (components : List (List Char)) (vars : List (List Char × List Char)) : List Char :=
  pyJoin (strL "\n\n") (sectionsOf store components vars ++ [protocolRef])

/-- Component list of `assemble_queen_dna` (lines 41-49). -/
def queenComponents : List (List Char) :=
  [strL "base-header", strL "prime-directive", strL "sub-agent-context",
   strL "project-context", strL "queen-capabilities", strL "workflow-start",
   strL "queen-output"]

/-- Variable mapping of `assemble_queen_dna` (lines 51-58), in dict insertion
order; `ts` models `datetime.now().isoformat()`. -/
def queenVariables (ts : List Char) : List (List Char × List Char) :=
  [(strL "AGENT_TYPE", strL "Queen"),
   (strL "AGENT_ID", strL "zen-queen"),
   (strL "TIMESTAMP", ts),
   (strL "SPECIALIZATION", strL "Strategic Coordination"),
   (strL "PRIME_DIRECTIVE", strL "Lead the swarm to successfully implement the ZEN language interpreter by analyzing project state, identifying critical paths, and recommending optimal task assignments. You coordinate but do NOT implement code."),
   (strL "TOOL_ACCESS", strL "Read, Bash (for make vision/enforce)")]

/-- `assemble_queen_dna` (lines 39-60). -/
def assemble_queen_dna (store : FragStore) (ts : List Char) : List Char :=
  _assemble_dna store queenComponents (queenVariables ts)

/-- Component list of `assemble_architect_dna` (lines 64-73). -/
def architectComponents : List (List Char) :=
  [strL "base-header", strL "prime-directive", strL "sub-agent-context",
   strL "project-context", strL "architect-capabilities", strL "workflow-start",
   strL "coding-standards", strL "architect-output"]

/-- Variable mapping of `assemble_architect_dna` (lines 75-82). -/
def architectVariables (ts : List Char) : List (List Char × List Char) :=
  [(strL "AGENT_TYPE", strL "Architect"),
   (strL "AGENT_ID", strL "zen-architect"),
   (strL "TIMESTAMP", ts),
   (strL "SPECIALIZATION", strL "System Design"),
   (strL "PRIME_DIRECTIVE", strL "Design the technical architecture of ZEN language components, creating clear specifications that workers can implement without ambiguity. You design but do NOT implement code."),
   (strL "TOOL_ACCESS", strL "Read, Write (for design docs)")]

/-- `assemble_architect_dna` (lines 62-84). -/
def assemble_architect_dna (store : FragStore) (ts : List Char) : List Char :=
  _assemble_dna store architectComponents (architectVariables ts)

/-- Base component list of `assemble_worker_dna` (lines 88-97). -/
def workerBaseComponents : List (List Char) :=
  [strL "base-header", strL "prime-directive", strL "sub-agent-context",
   strL "project-context", strL "worker-capabilities", strL "workflow-start",
   strL "coding-standards", strL "worker-output"]

/-- Python `l.insert(-1, x)` on a non-empty list: insert immediately before
the last element. -/
def insertBeforeLast (l : List α) (x : α) : List α :=
  l.take (l.length - 1) ++ x :: l.drop (l.length - 1)

/-- The component list actually assembled for a worker: `components.insert(-1,
"worker-specializations")` when the specialization is not `"general"`
(lines 99-101). -/
def workerComponents (spec : List Char) : List (List Char) :=
  if spec = strL "general" then workerBaseComponents
  else insertBeforeLast workerBaseComponents (strL "worker-specializations")

/-- Variable mapping of `assemble_worker_dna` (lines 106-116), with the four
`spec_data.get` results passed in. -/
def workerVariables (spec ts dsc det foc pat : List Char) : List (List Char × List Char) :=
  [(strL "AGENT_TYPE", strL "Worker"),
   (strL "AGENT_ID", strL "zen-worker-" ++ spec),
   (strL "TIMESTAMP", ts),
   (strL "SPECIALIZATION", spec),
   (strL "PRIME_DIRECTIVE", strL "Transform architectural designs into working code that strictly adheres to MANIFEST.json specifications. You are specialized in " ++ dsc ++ strL ". You implement with precision but do NOT make architectural decisions."),
   (strL "TOOL_ACCESS", strL "Read, Edit, MultiEdit, Bash"),
   (strL "SPECIALIZATION_DETAILS", det),
   (strL "FOCUS_AREAS", foc),
   (strL "KEY_PATTERNS", pat)]

/-- `spec_data` of `assemble_worker_dna` (line 104):
`self.load_specialization(specialization) if specialization != "general"
else \x7b\x7d`. -/
def workerSpecData (specStore : SpecStore) (spec : List Char) : Yaml :=
  if spec = strL "general" then Yaml.dict [] else load_specialization specStore spec

/-- `assemble_worker_dna` (lines 86-118): build the component list, fetch the
specialization attributes (each `spec_data.get` can raise on a `None`
record), and assemble.  The `Except` propagates the uncaught Python
exception. -/
def assemble_worker_dna (store : FragStore) (specStore : SpecStore) (ts spec : List Char) : Except PyErr (List Char) :=
  (specValues (workerSpecData specStore spec)).map
    (fun v => _assemble_dna store (workerComponents spec) (workerVariables spec ts v.1 v.2.1 v.2.2.1 v.2.2.2))

/-- The file name chosen by `save_dna` (lines 139-142): `role-spec.md` when
the role is `"worker"` and the specialization argument is truthy (a
non-empty string), else `role.md`. -/
def dnaFilename (role : List Char) (spez : Option (List Char)) : List Char :=
  match spez with
  | some s => if role = strL "worker" ∧ s ≠ [] then role ++ strL "-" ++ s ++ strL ".md" else role ++ strL ".md"
  | none => role ++ strL ".md"

/-- `save_dna` (lines 135-146): `path.write_text(content)` modelled as an
atomic hand-off of `(filename, content)` to the Output Writer; `writeOk`
says which destinations are writable, an unwritable one raises. -/
def save_dna (writeOk : List Char → Bool) (role : List Char) (spez : Option (List Char)) (content : List Char) : Except PyErr (List Char × List Char) :=
  if writeOk (dnaFilename role spez) then Except.ok (dnaFilename role spez, content)
  else Except.error PyErr.ioError

/-- The specialization loop of `assemble_all` (lines 163-167), over the
enumerated specialization names (glob order is unspecified, so the order is
a parameter).  Returns the writes performed before the first uncaught
exception, and that exception if one occurred. -/
def assembleSpecWorkers (store : FragStore) (specStore : SpecStore) (ts : List Char) (writeOk : List Char → Bool) : List (List Char) → List (List Char × List Char) × Option PyErr
  | [] => ([], none)
  | n :: ns =>
    match assemble_worker_dna store specStore ts n with
    | Except.error e => ([], some e)
    | Except.ok d =>
      match save_dna writeOk (strL "worker") (some n) d with
      | Except.error e => ([], some e)
      | Except.ok w =>
        match assembleSpecWorkers store specStore ts writeOk ns with
        | (rest, err) => (w :: rest, err)

/-- `assemble_all` (lines 148-171): queen, architect, the general worker,
then one worker per enumerated specialization name.  There is no
`try`/`except` in the source, so the first exception stops the batch; the
result records the writes that happened before it and the exception. -/
def assemble_all (store : FragStore) (specStore : SpecStore) (specNames : List (List Char)) (ts : List Char) (writeOk : List Char → Bool) : List (List Char × List Char) × Option PyErr :=
  match save_dna writeOk (strL "queen") none (assemble_queen_dna store ts) with
  | Except.error e => ([], some e)
  | Except.ok w1 =>
    match save_dna writeOk (strL "architect") none (assemble_architect_dna store ts) with
    | Except.error e => ([w1], some e)
    | Except.ok w2 =>
      match assemble_worker_dna store specStore ts (strL "general") with
      | Except.error e => ([w1, w2], some e)
      | Except.ok g =>
        match save_dna writeOk (strL "worker") (some (strL "general")) g with
        | Except.error e => ([w1, w2], some e)
        | Except.ok w3 =>
          match assembleSpecWorkers store specStore ts writeOk specNames with
          | (rest, err) => (w1 :: w2 :: w3 :: rest, err)

/-- The Fragment Store with one named fragment removed (or, equivalently for
`load_component`, emptied): the two-run comparison store of the omission
claim. -/
def removeFrag (store : FragStore) (name : List Char) : FragStore :=
  fun n => if n = name then none else store n

/-- The worker document assembled for `"general"`: base components and
default-valued variables. -/
def wgDoc (store : FragStore) (ts : List Char) : List Char :=
  _assemble_dna store workerBaseComponents
    (workerVariables (strL "general") ts (strL "general implementation") [] [] [])

/-- The Fragment Store of the specification example: `base-header` is `"H"`,
`prime-directive` is `"Do \x7b\x7bAGENT_TYPE\x7d\x7d work"`, everything else absent. -/
def exampleStore : FragStore := fun n =>
  if n = strL "base-header" then some (strL "H")
  else if n = strL "prime-directive" then some (strL "Do \x7b\x7bAGENT_TYPE\x7d\x7d work")
  else none

/-- A Fragment Store holding only a marker text in the
`worker-specializations` fragment. -/
def markerStore : FragStore := fun n =>
  if n = strL "worker-specializations" then some (strL "WSPECMARK") else none

/-- A Specialization Store whose `memory` record is a present-but-empty YAML
file (`yaml.safe_load` returns `None`). -/
def nullStore : SpecStore := fun n =>
  if n = strL "memory" then some Yaml.null else none


/- ## Generic helper lemmas -/

theorem pyJoin_cons_ne (sep x : List Char) (l : List (List Char)) (h : l ≠ []) :
    pyJoin sep (x :: l) = x ++ sep ++ pyJoin sep l := by
  cases l with
  | nil => exact absurd rfl h
  | cons y ys => rfl

theorem suffix_pyJoin_last (sep x : List Char) (l : List (List Char)) :
    x <:+ pyJoin sep (l ++ [x]) := by
  induction l with
  | nil => exact List.suffix_rfl
  | cons a l ih =>
    rw [List.cons_append, pyJoin_cons_ne sep a (l ++ [x]) (by simp)]
    obtain ⟨t, ht⟩ := ih
    exact ⟨a ++ (sep ++ t), by simp [List.append_assoc, ht]⟩

theorem infix_append_right_of (u w p : List Char) (h : p <:+: w) : p <:+: u ++ w := by
  obtain ⟨x, y, hxy⟩ := h
  exact ⟨u ++ x, y, by rw [← hxy]; simp [List.append_assoc]⟩

theorem infix_cons_of (c : Char) (t p : List Char) (h : p <:+: t) : p <:+: c :: t := by
  simpa using infix_append_right_of [c] t p h

theorem infix_of_pref_drop (p s : List Char) (i : Nat) (h : p <+: s.drop i) : p <:+: s := by
  obtain ⟨t, ht⟩ := h
  exact ⟨s.take i, t, by rw [List.append_assoc, ht, List.take_append_drop]⟩

theorem pref_drop_of_infix (p s : List Char) (h : p <:+: s) : ∃ i, p <+: s.drop i := by
  obtain ⟨u, t, hut⟩ := h
  refine ⟨u.length, t, ?_⟩
  rw [← hut, List.append_assoc, List.drop_left]

theorem infix_pyJoin_of_mem (sep x : List Char) (l : List (List Char)) (h : x ∈ l) :
    x <:+: pyJoin sep l := by
  induction l with
  | nil => cases h
  | cons a l ih =>
    rcases List.mem_cons.mp h with rfl | hx
    · cases l with
      | nil => exact List.infix_rfl
      | cons b bs =>
        have he : pyJoin sep (x :: b :: bs) = x ++ (sep ++ pyJoin sep (b :: bs)) := by
          simp [pyJoin, List.append_assoc]
        rw [he]
        exact (List.prefix_append x (sep ++ pyJoin sep (b :: bs))).isInfix
    · cases l with
      | nil => cases hx
      | cons b bs =>
        have h2 := ih hx
        rw [pyJoin_cons_ne sep a (b :: bs) (by simp), List.append_assoc]
        exact infix_append_right_of a _ x (infix_append_right_of sep _ x h2)

theorem splitOnAux_ne_nil : ∀ (n : Nat) (pat s : List Char), splitOnAux n pat s ≠ []
  | 0, _, _ => by simp [splitOnAux]
  | _ + 1, _, [] => by simp [splitOnAux]
  | n + 1, pat, c :: rest => by
    rw [splitOnAux]
    split
    · simp
    · split <;> simp

theorem replaceAllAux_eq_join : ∀ (n : Nat) (pat rep s : List Char),
    replaceAllAux n pat rep s = pyJoin rep (splitOnAux n pat s)
  | 0, pat, rep, s => by simp [replaceAllAux, splitOnAux, pyJoin]
  | _ + 1, pat, rep, [] => by simp [replaceAllAux, splitOnAux, pyJoin]
  | n + 1, pat, rep, c :: rest => by
    rw [replaceAllAux, splitOnAux]
    split
    · rw [replaceAllAux_eq_join n]
      rw [pyJoin_cons_ne rep [] _ (splitOnAux_ne_nil n pat _)]
      simp
    · rw [replaceAllAux_eq_join n]
      cases hs : splitOnAux n pat rest with
      | nil => exact absurd hs (splitOnAux_ne_nil n pat rest)
      | cons t ts =>
        cases ts with
        | nil => rfl
        | cons u us => simp [pyJoin, List.cons_append, List.append_assoc]

theorem pyJoin_splitOnAux : ∀ (n : Nat) (pat s : List Char),
    pyJoin pat (splitOnAux n pat s) = s
  | 0, pat, s => by simp [splitOnAux, pyJoin]
  | _ + 1, pat, [] => by simp [splitOnAux, pyJoin]
  | n + 1, pat, c :: rest => by
    rw [splitOnAux]
    split
    case isTrue h =>
      rw [pyJoin_cons_ne pat [] _ (splitOnAux_ne_nil n pat _)]
      rw [pyJoin_splitOnAux n]
      obtain ⟨w, hw⟩ := h
      rw [← hw, List.drop_left]
      simp
    case isFalse h =>
      cases hs : splitOnAux n pat rest with
      | nil => exact absurd hs (splitOnAux_ne_nil n pat rest)
      | cons t ts =>
        have ih : pyJoin pat (t :: ts) = rest := by rw [← hs, pyJoin_splitOnAux n]
        cases ts with
        | nil => simpa [pyJoin] using ih
        | cons u us =>
          simp only [pyJoin, List.cons_append, List.append_assoc] at ih ⊢
          rw [ih]

theorem splitOnAux_head_pref : ∀ (n : Nat) (pat s t : List Char) (ts : List (List Char)),
    splitOnAux n pat s = t :: ts → t <+: s
  | 0, pat, s, t, ts => by
    intro h
    simp only [splitOnAux, List.cons.injEq] at h
    rw [← h.1]
  | _ + 1, pat, [], t, ts => by
    intro h
    simp only [splitOnAux, List.cons.injEq] at h
    rw [← h.1]
  | n + 1, pat, c :: rest, t, ts => by
    intro h
    rw [splitOnAux] at h
    split at h
    · rw [← (List.cons_eq_cons.mp h).1]
      exact List.nil_prefix
    · split at h
      · rw [← (List.cons_eq_cons.mp h).1]
        -- unreachable case shape: the inner split result was []
        exact List.cons_prefix_cons.mpr ⟨rfl, List.nil_prefix⟩
      · next t' ts' hs =>
        rw [← (List.cons_eq_cons.mp h).1]
        exact List.cons_prefix_cons.mpr ⟨rfl, splitOnAux_head_pref n pat rest t' ts' hs⟩

theorem splitOnAux_no_pat : ∀ (n : Nat) (pat s : List Char), pat ≠ [] → s.length ≤ n →
    ∀ seg ∈ splitOnAux n pat s, ¬ pat <:+: seg
  | 0, pat, s, hp, hn, seg, hseg => by
    have hs : s = [] := List.length_eq_zero.mp (by omega)
    subst hs
    simp only [splitOnAux, List.mem_singleton] at hseg
    subst hseg
    intro hcon
    exact hp (by simpa using hcon)
  | _ + 1, pat, [], hp, hn, seg, hseg => by
    simp only [splitOnAux, List.mem_singleton] at hseg
    subst hseg
    intro hcon
    exact hp (by simpa using hcon)
  | n + 1, pat, c :: rest, hp, hn, seg, hseg => by
    have hplen : 1 ≤ pat.length := by
      cases pat with
      | nil => exact absurd rfl hp
      | cons a as => simp
    rw [splitOnAux] at hseg
    split at hseg
    case isTrue h =>
      rcases List.mem_cons.mp hseg with rfl | htail
      · intro hcon
        exact hp (by simpa using hcon)
      · exact splitOnAux_no_pat n pat _ hp
          (by simp only [List.length_drop, List.length_cons] at hn ⊢; omega) seg htail
    case isFalse h =>
      cases hs : splitOnAux n pat rest with
      | nil => exact absurd hs (splitOnAux_ne_nil n pat rest)
      | cons t ts =>
        rw [hs] at hseg
        have hrest : rest.length ≤ n := by simpa using hn
        rcases List.mem_cons.mp hseg with rfl | htail
        · intro hcon
          rcases List.infix_cons_iff.mp hcon with hpre | hinf
          · have ht : t <+: rest := splitOnAux_head_pref n pat rest t ts hs
            have : pat <+: c :: rest :=
              hpre.trans (List.cons_prefix_cons.mpr ⟨rfl, ht⟩)
            exact h this
          · exact splitOnAux_no_pat n pat rest hp hrest t (hs ▸ List.mem_cons_self t ts) hinf
        · exact splitOnAux_no_pat n pat rest hp hrest seg
            (hs ▸ List.mem_cons_of_mem t htail)

/- ## Brace analysis: placeholders of brace-free keys cannot overlap -/

theorem lb_ne_rb : lb ≠ rb := by decide

theorem placeholder_ne_nil (k : List Char) : placeholder k ≠ [] := by simp [placeholder]

theorem placeholder_length (k : List Char) : (placeholder k).length = k.length + 4 := by
  simp [placeholder]

theorem placeholder_getq_lb (k : List Char) (hk : braceFree k) :
    ∀ j, (placeholder k)[j]? = some lb → j = 0 ∨ j = 1
  | 0, _ => Or.inl rfl
  | 1, _ => Or.inr rfl
  | j + 2, h => by
    exfalso
    rw [placeholder, List.getElem?_cons_succ, List.getElem?_cons_succ] at h
    have hmem : lb ∈ k ++ [rb, rb] := List.getElem?_mem h
    rcases List.mem_append.mp hmem with hm | hm
    · exact hk.1 hm
    · simp only [List.mem_cons, List.not_mem_nil, or_false, or_self] at hm
      exact lb_ne_rb hm

theorem placeholder_lb_zero (k : List Char) : (placeholder k)[0]? = some lb := by
  simp [placeholder]

theorem placeholder_lb_one (k : List Char) : (placeholder k)[1]? = some lb := by
  simp [placeholder]

theorem pref_getq (p s : List Char) (h : p <+: s) (j : Nat) (a : Char)
    (hj : p[j]? = some a) : s[j]? = some a := by
  obtain ⟨t, rfl⟩ := h
  rw [List.getElem?_append_left (List.getElem?_eq_some.mp hj).1]
  exact hj

theorem no_inner_match (cc kk w : List Char) (hc : braceFree cc) (j : Nat)
    (h1 : 1 ≤ j) (h2 : j < (placeholder cc).length)
    (h : placeholder kk <+: (placeholder cc ++ w).drop j) : False := by
  have e0 : (placeholder cc ++ w)[j]? = some lb := by
    have := pref_getq _ _ h 0 lb (placeholder_lb_zero kk)
    rwa [List.getElem?_drop] at this
  have e1 : (placeholder cc ++ w)[j + 1]? = some lb := by
    have := pref_getq _ _ h 1 lb (placeholder_lb_one kk)
    rwa [List.getElem?_drop] at this
  have f0 : (placeholder cc)[j]? = some lb := by
    rwa [List.getElem?_append_left h2] at e0
  have hj1 : j = 1 := by
    rcases placeholder_getq_lb cc hc j f0 with h' | h' <;> omega
  subst hj1
  have hlen : 2 < (placeholder cc).length := by
    rw [placeholder_length]; omega
  have f1 : (placeholder cc)[2]? = some lb := by
    rwa [List.getElem?_append_left hlen] at e1
  rcases placeholder_getq_lb cc hc 2 f1 with h' | h' <;> omega

theorem pref_placeholder_inj (c k : List Char) (_hc : braceFree c) (hk : braceFree k)
    (h : placeholder c <+: placeholder k) : c = k := by
  have hlen : c.length ≤ k.length := by
    have := h.length_le
    rw [placeholder_length, placeholder_length] at this
    omega
  rcases Nat.lt_or_ge c.length k.length with hlt | hge
  · exfalso
    have hc2 : (placeholder c)[c.length + 2]? = some rb := by
      rw [placeholder, List.getElem?_cons_succ, List.getElem?_cons_succ,
        List.getElem?_append_right (Nat.le_refl c.length)]
      simp
    have hk2 := pref_getq _ _ h (c.length + 2) rb hc2
    rw [placeholder, List.getElem?_cons_succ, List.getElem?_cons_succ,
      List.getElem?_append_left hlt] at hk2
    exact hk.2 (List.getElem?_mem hk2)
  · have heql : c.length = k.length := by omega
    have hfull : (placeholder c).length = (placeholder k).length := by
      rw [placeholder_length, placeholder_length, heql]
    have heq := h.eq_of_length hfull
    rw [placeholder, placeholder] at heq
    injection heq with _ heq'
    injection heq' with _ heq''
    exact (List.append_inj heq'' heql).1

/- ## Preservation of other placeholders through one replacement pass -/

theorem pref_replaceAllAux (pat v : List Char) : ∀ (n : Nat) (p s : List Char),
    s.length ≤ n → p <+: s → (∀ j, j < p.length → ¬ pat <+: s.drop j) →
    p <+: replaceAllAux n pat v s := by
  intro n
  induction n with
  | zero =>
    intro p s hn hp _
    have hs : s = [] := List.length_eq_zero.mp (by omega)
    subst hs
    simpa [replaceAllAux] using hp
  | succ n ih =>
    intro p s hn hp hj
    cases s with
    | nil => simpa [replaceAllAux] using hp
    | cons c rest =>
      cases p with
      | nil => exact List.nil_prefix
      | cons a p' =>
        have hnm : ¬ pat <+: (c :: rest) := by
          have := hj 0 (by simp)
          simpa using this
        rw [replaceAllAux, if_neg hnm]
        rcases List.cons_prefix_cons.mp hp with ⟨rfl, hp'⟩
        refine List.cons_prefix_cons.mpr ⟨rfl, ih p' rest (by simpa using hn) hp' ?_⟩
        intro j hjp
        have := hj (j + 1) (by simpa using Nat.succ_lt_succ hjp)
        simpa using this

theorem infix_replaceAllAux (cC cK v : List Char) (hC : braceFree cC) (hK : braceFree cK)
    (hne : cC ≠ cK) : ∀ (n : Nat) (s : List Char), s.length ≤ n →
    placeholder cC <:+: s →
    placeholder cC <:+: replaceAllAux n (placeholder cK) v s := by
  intro n
  induction n with
  | zero => intro s _ h; simpa [replaceAllAux] using h
  | succ n ih =>
    intro s hn h
    cases s with
    | nil => simpa [replaceAllAux] using h
    | cons c rest =>
      obtain ⟨i, hi⟩ := pref_drop_of_infix _ _ h
      by_cases hm : placeholder cK <+: (c :: rest)
      · rw [replaceAllAux, if_pos hm]
        have hige : (placeholder cK).length ≤ i := by
          rcases Nat.eq_zero_or_pos i with rfl | hpos
          · exfalso
            simp only [List.drop_zero] at hi
            rcases List.prefix_or_prefix_of_prefix hi hm with hpp | hpp
            · exact hne (pref_placeholder_inj cC cK hC hK hpp)
            · exact hne (pref_placeholder_inj cK cC hK hC hpp).symm
          · by_contra hlt
            push_neg at hlt
            obtain ⟨w, hw⟩ := hm
            rw [← hw] at hi
            exact no_inner_match cK cC w hK i hpos hlt hi
        have h2 : placeholder cC <:+: (c :: rest).drop (placeholder cK).length := by
          refine infix_of_pref_drop _ _ (i - (placeholder cK).length) ?_
          rw [List.drop_drop, show (placeholder cK).length + (i - (placeholder cK).length) = i from by omega]
          exact hi
        have hlen2 : ((c :: rest).drop (placeholder cK).length).length ≤ n := by
          have hpl : (placeholder cK).length = cK.length + 4 := placeholder_length cK
          simp only [List.length_drop, List.length_cons] at hn ⊢
          omega
        exact infix_append_right_of v _ _ (ih _ hlen2 h2)
      · rcases Nat.eq_zero_or_pos i with rfl | hpos
        · simp only [List.drop_zero] at hi
          refine (pref_replaceAllAux (placeholder cK) v (n + 1) (placeholder cC) (c :: rest) hn hi ?_).isInfix
          intro j hjlt
          rcases Nat.eq_zero_or_pos j with rfl | hjpos
          · simpa using hm
          · intro hcon
            obtain ⟨w, hw⟩ := hi
            rw [← hw] at hcon
            exact no_inner_match cC cK w hC j hjpos hjlt hcon
        · rw [replaceAllAux, if_neg hm]
          have h2 : placeholder cC <:+: rest := by
            refine infix_of_pref_drop _ _ (i - 1) ?_
            have := hi
            rw [show i = (i - 1) + 1 from by omega] at this
            simpa [List.drop_succ_cons] using this
          exact infix_cons_of c _ _ (ih rest (by simpa using hn) h2)

/- ## Substitution-level lemmas -/

theorem substitute_nil (vars : List (List Char × List Char)) :
    substitute_variables [] vars = [] := by
  have hr : ∀ pat rep : List Char, replaceAll pat rep [] = [] := by
    intro pat rep
    rw [replaceAll]
    split <;> rfl
  induction vars with
  | nil => rfl
  | cons kv vars ih =>
    show substitute_variables (replaceAll (placeholder kv.1) kv.2 []) vars = []
    rw [hr]
    exact ih

theorem substitute_cons (T : List Char) (k v : List Char) (M : List (List Char × List Char)) :
    substitute_variables T ((k, v) :: M) =
      substitute_variables (replaceAll (placeholder k) v T) M := rfl

theorem substitute_preserves_absent :
    ∀ (M : List (List Char × List Char)) (T C : List Char),
    braceFree C → (∀ kv ∈ M, braceFree kv.1 ∧ kv.1 ≠ C) →
    placeholder C <:+: T → placeholder C <:+: substitute_variables T M
  | [], T, C, _, _, h => h
  | (k, v) :: M', T, C, hC, hM, h => by
    have hk := hM (k, v) (List.mem_cons_self _ _)
    have step : placeholder C <:+: replaceAll (placeholder k) v T := by
      rw [replaceAll, if_neg (placeholder_ne_nil k)]
      exact infix_replaceAllAux C k v hC hk.1 (fun he => hk.2 he.symm) T.length T (Nat.le_refl _) h
    rw [substitute_cons]
    exact substitute_preserves_absent M' _ C hC
      (fun kv hkv => hM kv (List.mem_cons_of_mem _ hkv)) step

theorem substitute_single (k v T : List Char) :
    substitute_variables T [(k, v)] = pyJoin v (splitOnL (placeholder k) T) := by
  rw [substitute_cons]
  show substitute_variables (replaceAll (placeholder k) v T) [] = _
  rw [substitute_variables]
  simp only [List.foldl_nil]
  rw [replaceAll, if_neg (placeholder_ne_nil k), splitOnL, replaceAllAux_eq_join]

/- ## Assembler-level lemmas -/

theorem protocol_suffix (store : FragStore) (comps : List (List Char))
    (vars : List (List Char × List Char)) :
    protocolRef <:+ _assemble_dna store comps vars :=
  suffix_pyJoin_last (strL "\n\n") protocolRef (sectionsOf store comps vars)

theorem worker_ok_shape (store : FragStore) (specStore : SpecStore) (ts spec d : List Char)
    (h : assemble_worker_dna store specStore ts spec = Except.ok d) :
    ∃ v, specValues (workerSpecData specStore spec) = Except.ok v ∧
      d = _assemble_dna store (workerComponents spec)
        (workerVariables spec ts v.1 v.2.1 v.2.2.1 v.2.2.2) := by
  unfold assemble_worker_dna at h
  cases hsv : specValues (workerSpecData specStore spec) with
  | error e => rw [hsv] at h; simp [Except.map] at h
  | ok v =>
    rw [hsv] at h
    simp only [Except.map, Except.ok.injEq] at h
    exact ⟨v, rfl, h.symm⟩

theorem worker_general_ok (store : FragStore) (specStore : SpecStore) (ts : List Char) :
    assemble_worker_dna store specStore ts (strL "general") = Except.ok (wgDoc store ts) := rfl

theorem section_infix (store : FragStore) (comps : List (List Char))
    (vars : List (List Char × List Char)) (comp : List Char) (hmem : comp ∈ comps) :
    substitute_variables (load_component store comp) vars <:+: _assemble_dna store comps vars := by
  by_cases hempty : (load_component store comp).isEmpty
  · have he : load_component store comp = [] := by simpa using hempty
    rw [he, substitute_nil]
    exact ⟨[], _assemble_dna store comps vars, by simp⟩
  · have hmem2 : substitute_variables (load_component store comp) vars ∈ sectionsOf store comps vars := by
      rw [sectionsOf]
      refine List.mem_map_of_mem _ (List.mem_filter.mpr ⟨List.mem_map_of_mem _ hmem, ?_⟩)
      simpa using hempty
    exact infix_pyJoin_of_mem _ _ _ (List.mem_append_left _ hmem2)

theorem wspec_mem_components (spec : List Char) (h : spec ≠ strL "general") :
    strL "worker-specializations" ∈ workerComponents spec := by
  rw [workerComponents, if_neg h]
  decide

theorem load_removeFrag_self (store : FragStore) (name : List Char) :
    load_component (removeFrag store name) name = [] := by
  simp [load_component, removeFrag]

theorem load_removeFrag_ne (store : FragStore) (name c : List Char) (hc : c ≠ name) :
    load_component (removeFrag store name) c = load_component store c := by
  simp [load_component, removeFrag, hc]

theorem sectionsOf_remove (store : FragStore) (name : List Char)
    (comps : List (List Char)) (vars : List (List Char × List Char)) :
    sectionsOf (removeFrag store name) comps vars =
      sectionsOf store (comps.filter (fun c => !(c = name : Bool))) vars := by
  induction comps with
  | nil => rfl
  | cons c cs ih =>
    by_cases hc : c = name
    · subst hc
      have lhs : sectionsOf (removeFrag store c) (c :: cs) vars =
          sectionsOf (removeFrag store c) cs vars := by
        simp [sectionsOf, List.filter_cons, load_removeFrag_self]
      have rhs : (c :: cs).filter (fun x => !(x = c : Bool)) =
          cs.filter (fun x => !(x = c : Bool)) := by
        simp [List.filter_cons]
      rw [lhs, rhs]
      exact ih
    · have rhs : (c :: cs).filter (fun x => !(x = name : Bool)) =
          c :: cs.filter (fun x => !(x = name : Bool)) := by
        simp [List.filter_cons, hc]
      rw [rhs]
      by_cases he : (load_component store c).isEmpty
      · have l1 : sectionsOf (removeFrag store name) (c :: cs) vars =
            sectionsOf (removeFrag store name) cs vars := by
          simp [sectionsOf, List.filter_cons, load_removeFrag_ne store name c hc, he]
        have l2 : sectionsOf store (c :: cs.filter (fun x => !(x = name : Bool))) vars =
            sectionsOf store (cs.filter (fun x => !(x = name : Bool))) vars := by
          simp [sectionsOf, List.filter_cons, he]
        rw [l1, l2]
        exact ih
      · have l1 : sectionsOf (removeFrag store name) (c :: cs) vars =
            substitute_variables (load_component store c) vars ::
              sectionsOf (removeFrag store name) cs vars := by
          simp [sectionsOf, List.filter_cons, load_removeFrag_ne store name c hc, he]
        have l2 : sectionsOf store (c :: cs.filter (fun x => !(x = name : Bool))) vars =
            substitute_variables (load_component store c) vars ::
              sectionsOf store (cs.filter (fun x => !(x = name : Bool))) vars := by
          simp [sectionsOf, List.filter_cons, he]
        rw [l1, l2, ih]

theorem assemble_dna_remove (store : FragStore) (name : List Char)
    (comps : List (List Char)) (vars : List (List Char × List Char)) :
    _assemble_dna (removeFrag store name) comps vars =
      _assemble_dna store (comps.filter (fun c => !(c = name : Bool))) vars := by
  rw [_assemble_dna, _assemble_dna, sectionsOf_remove]

theorem assemble_cons_sections (store : FragStore) (comps : List (List Char))
    (vars : List (List Char × List Char)) (t : List Char) (ts' : List (List Char))
    (h : sectionsOf store comps vars = t :: ts') :
    _assemble_dna store comps vars =
      t ++ strL "\n\n" ++ pyJoin (strL "\n\n") (ts' ++ [protocolRef]) := by
  rw [_assemble_dna, h, List.cons_append, pyJoin_cons_ne _ _ _ (by simp)]

theorem dnaFilename_worker_general :
    dnaFilename (strL "worker") (some (strL "general")) = strL "worker-general.md" := by decide

theorem save_dna_ok (writeOk : List Char → Bool) (role : List Char) (spez : Option (List Char))
    (content : List Char) (h : writeOk (dnaFilename role spez) = true) :
    save_dna writeOk role spez content = Except.ok (dnaFilename role spez, content) := by
  rw [save_dna, if_pos h]

theorem save_dna_fail (writeOk : List Char → Bool) (role : List Char) (spez : Option (List Char))
    (content : List Char) (h : writeOk (dnaFilename role spez) = false) :
    save_dna writeOk role spez content = Except.error PyErr.ioError := by
  rw [save_dna, if_neg (by simp [h])]

theorem worker_dict_ok (store : FragStore) (specStore : SpecStore) (ts n : List Char)
    (r : List (List Char × List Char)) (hr : workerSpecData specStore n = Yaml.dict r) :
    ∃ dn, assemble_worker_dna store specStore ts n = Except.ok dn := by
  unfold assemble_worker_dna
  rw [hr]
  exact ⟨_, rfl⟩

theorem specWorkers_general (store : FragStore) (specStore : SpecStore) (ts : List Char)
    (writeOk : List Char → Bool) (hW : ∀ f, writeOk f = true) :
    ∀ names : List (List Char),
      (∀ n ∈ names, ∃ r, workerSpecData specStore n = Yaml.dict r) →
      (assembleSpecWorkers store specStore ts writeOk names).2 = none ∧
      (strL "general" ∈ names →
        (strL "worker-general.md", wgDoc store ts) ∈
          (assembleSpecWorkers store specStore ts writeOk names).1)
  | [] => by
    intro _
    exact ⟨rfl, by simp [assembleSpecWorkers]⟩
  | n :: ns => by
    intro hd
    obtain ⟨r, hr⟩ := hd n (List.mem_cons_self _ _)
    obtain ⟨dn, hdn⟩ := worker_dict_ok store specStore ts n r hr
    have hsave := save_dna_ok writeOk (strL "worker") (some n) dn (hW _)
    have ihs := specWorkers_general store specStore ts writeOk hW ns
      (fun m hm => hd m (List.mem_cons_of_mem _ hm))
    cases hns : assembleSpecWorkers store specStore ts writeOk ns with
    | mk rest err =>
      rw [hns] at ihs
      have hred : assembleSpecWorkers store specStore ts writeOk (n :: ns) =
          ((dnaFilename (strL "worker") (some n), dn) :: rest, err) := by
        simp only [assembleSpecWorkers, hdn, hsave, hns]
      rw [hred]
      constructor
      · exact ihs.1
      · intro hg
        rcases List.mem_cons.mp hg with he | hm
        · have hdg : dn = wgDoc store ts := by
            rw [← he, worker_general_ok] at hdn
            exact ((Except.ok.injEq _ _).mp hdn).symm
          rw [hdg, ← he, dnaFilename_worker_general]
          exact List.mem_cons_self _ _
        · exact List.mem_cons_of_mem _ (ihs.2 hm)

/- ## Claim theorems -/

set_option maxRecDepth 40000

/-- Claim C1, counterexample: substitution is NOT single-pass across the whole
mapping.  With `M = [(A, "\x7b\x7bB\x7d\x7d"), (B, "x")]` and `T = "\x7b\x7bA\x7d\x7d"`, the pass for
`A` inserts `\x7b\x7bB\x7d\x7d`, and the later pass for `B` replaces that introduced
occurrence: the output is `"x"`, and the value text `"\x7b\x7bB\x7d\x7d"` does not appear
verbatim in it. -/
theorem substitution_rescans_cex :
    substitute_variables (strL "\x7b\x7bA\x7d\x7d")
        [(strL "A", strL "\x7b\x7bB\x7d\x7d"), (strL "B", strL "x")] = strL "x" ∧
    ¬ strL "\x7b\x7bB\x7d\x7d" <:+:
        substitute_variables (strL "\x7b\x7bA\x7d\x7d")
          [(strL "A", strL "\x7b\x7bB\x7d\x7d"), (strL "B", strL "x")] := by
  decide

/-- Claim C1 (amended): substitution is single-pass and non-recursive within
each single key's pass: substituting a one-key mapping `[(k, v)]` yields the
value `v` inserted verbatim between the segments of the greedy decomposition
of `T` at `\x7b\x7bk\x7d\x7d`, and that decomposition (`splitOnL`) does not depend on `v`,
so text introduced by `v` is never re-scanned by that same pass.  (Across
keys, a later key's pass does re-scan earlier insertions — see the
counterexample.) -/
theorem substitution_single_pass_per_key :
    ∀ (k v T : List Char),
      substitute_variables T [(k, v)] = pyJoin v (splitOnL (placeholder k) T) :=
  substitute_single

/-- Claim C2: the Document Composer joins the substituted non-empty fragments
and the fixed closing section with the separator `"\n\n"` (one blank line),
and on the specification's example store the Coordinator document starts with
the sections `"H"` and `"Do Coordinator work"` separated by one blank line,
followed by the closing section attached with the same separator. -/
theorem composer_one_blank_line :
    (∀ (store : FragStore) (comps : List (List Char)) (vars : List (List Char × List Char))
        (t : List Char) (ts' : List (List Char)),
        sectionsOf store comps vars = t :: ts' →
        _assemble_dna store comps vars =
          t ++ strL "\n\n" ++ pyJoin (strL "\n\n") (ts' ++ [protocolRef])) ∧
    _assemble_dna exampleStore queenComponents [(strL "AGENT_TYPE", strL "Coordinator")] =
      strL "H\n\nDo Coordinator work\n\n" ++ protocolRef :=
  ⟨assemble_cons_sections, by decide⟩

/-- Witness for C2: the general separator statement applied to the example
store, whose section list is exactly `["H", "Do Coordinator work"]`. -/
theorem composer_one_blank_line_witness :
    _assemble_dna exampleStore queenComponents [(strL "AGENT_TYPE", strL "Coordinator")] =
      strL "H" ++ strL "\n\n" ++
        pyJoin (strL "\n\n") ([strL "Do Coordinator work"] ++ [protocolRef]) :=
  composer_one_blank_line.1 exampleStore queenComponents
    [(strL "AGENT_TYPE", strL "Coordinator")] (strL "H") [strL "Do Coordinator work"]
    (by decide)

/-- Claim C3: for a specialization other than `"general"` the worker
component list is the base list with `worker-specializations` inserted
immediately before the last element, and the assembled document contains
that fragment's substituted text; for `"general"` no insertion happens and
(on a store where only that fragment is non-empty) the document does not
contain it. -/
theorem worker_specialization_insertion :
    (∀ spec : List Char, spec ≠ strL "general" →
      workerComponents spec =
        [strL "base-header", strL "prime-directive", strL "sub-agent-context",
         strL "project-context", strL "worker-capabilities", strL "workflow-start",
         strL "coding-standards", strL "worker-specializations", strL "worker-output"]) ∧
    (workerComponents (strL "general") = workerBaseComponents ∧
      strL "worker-specializations" ∉ workerBaseComponents) ∧
    (∀ (store : FragStore) (specStore : SpecStore) (ts spec d : List Char)
        (v : List Char × List Char × List Char × List Char),
        spec ≠ strL "general" →
        assemble_worker_dna store specStore ts spec = Except.ok d →
        specValues (workerSpecData specStore spec) = Except.ok v →
        substitute_variables (load_component store (strL "worker-specializations"))
          (workerVariables spec ts v.1 v.2.1 v.2.2.1 v.2.2.2) <:+: d) ∧
    (assemble_worker_dna markerStore (fun _ => none) [] (strL "general") =
        Except.ok (wgDoc markerStore []) ∧
      ¬ strL "WSPECMARK" <:+: wgDoc markerStore []) := by
  refine ⟨?_, ⟨by rw [workerComponents, if_pos rfl], by decide⟩, ?_,
    worker_general_ok markerStore (fun _ => none) [], by decide⟩
  · intro spec h
    rw [workerComponents, if_neg h]
    decide
  · intro store specStore ts spec d v hspec hok hsv
    obtain ⟨v', hsv', hd⟩ := worker_ok_shape store specStore ts spec d hok
    rw [hsv'] at hsv
    have hvv : v' = v := (Except.ok.injEq _ _).mp hsv
    subst hvv
    rw [hd]
    exact section_infix store (workerComponents spec) _ _ (wspec_mem_components spec hspec)

/-- Witness for C3: on the marker store and specialization `"memory"`, the
substituted `worker-specializations` text is contained in the assembled
document. -/
theorem worker_specialization_insertion_witness :
    substitute_variables (load_component markerStore (strL "worker-specializations"))
      (workerVariables (strL "memory") [] (strL "general implementation") [] [] []) <:+:
      _assemble_dna markerStore (workerComponents (strL "memory"))
        (workerVariables (strL "memory") [] (strL "general implementation") [] [] []) :=
  worker_specialization_insertion.2.2.1 markerStore (fun _ => none) [] (strL "memory")
    (_assemble_dna markerStore (workerComponents (strL "memory"))
      (workerVariables (strL "memory") [] (strL "general implementation") [] [] []))
    (strL "general implementation", [], [], [])
    (by decide) rfl rfl

/-- Claim C4, counterexample: an unwritable destination for the architect
document aborts the whole batch (there is no `try`/`except` in
`assemble_all`): only the queen document is handed off, the general worker
document is never assembled or written, and the error propagates. -/
theorem write_failure_not_isolated_cex :
    assemble_all (fun _ => none) (fun _ => none) [] []
        (fun f => !(f == strL "architect.md")) =
      ([(strL "queen.md", protocolRef)], some PyErr.ioError) ∧
    (strL "worker-general.md", protocolRef) ∉
      (assemble_all (fun _ => none) (fun _ => none) [] []
        (fun f => !(f == strL "architect.md"))).1 := by
  decide

/-- Claim C4 (amended): an Output Writer failure is surfaced but NOT isolated
to the failing document: the batch stops at the first failing write, the
documents written before it persist, and the failing document and every
later one are skipped entirely (in this model a write is atomic, so no
partial text is persisted for the failed document). -/
theorem write_failure_aborts_batch :
    ∀ (store : FragStore) (specStore : SpecStore) (names : List (List Char)) (ts : List Char)
      (writeOk : List Char → Bool),
      writeOk (strL "queen.md") = true → writeOk (strL "architect.md") = false →
      assemble_all store specStore names ts writeOk =
        ([(strL "queen.md", assemble_queen_dna store ts)], some PyErr.ioError) := by
  intro store specStore names ts writeOk hq ha
  have hfq : dnaFilename (strL "queen") none = strL "queen.md" := by decide
  have hfa : dnaFilename (strL "architect") none = strL "architect.md" := by decide
  have e1 : save_dna writeOk (strL "queen") none (assemble_queen_dna store ts) =
      Except.ok (strL "queen.md", assemble_queen_dna store ts) := by
    rw [save_dna_ok writeOk _ none _ (by rw [hfq]; exact hq), hfq]
  have e2 : save_dna writeOk (strL "architect") none (assemble_architect_dna store ts) =
      Except.error PyErr.ioError :=
    save_dna_fail writeOk _ none _ (by rw [hfa]; exact ha)
  simp only [assemble_all, e1, e2]

/-- Witness for C4 (amended): concrete instance of the abort behaviour. -/
theorem write_failure_aborts_batch_witness :
    assemble_all (fun _ => none) (fun _ => none) [strL "memory"] []
        (fun f => !(f == strL "architect.md")) =
      ([(strL "queen.md", assemble_queen_dna (fun _ => none) [])], some PyErr.ioError) :=
  write_failure_aborts_batch (fun _ => none) (fun _ => none) [strL "memory"] []
    (fun f => !(f == strL "architect.md")) (by decide) (by decide)

/-- Claim C5, counterexample: with a key whose text contains braces, the
claimed universal statement fails: the placeholder of the key `B\x7b\x7bA` — a key
absent from `M = [(A, X)]` — occurs in `T = "\x7b\x7bB\x7b\x7bA\x7d\x7d\x7d\x7d"` but does not remain
byte-identical in the output `"\x7b\x7bBX\x7d\x7d"`. -/
theorem substitution_correctness_cex :
    placeholder (strL "B\x7b\x7bA") <:+: strL "\x7b\x7bB\x7b\x7bA\x7d\x7d\x7d\x7d" ∧
    substitute_variables (strL "\x7b\x7bB\x7b\x7bA\x7d\x7d\x7d\x7d") [(strL "A", strL "X")] =
      strL "\x7b\x7bBX\x7d\x7d" ∧
    ¬ placeholder (strL "B\x7b\x7bA") <:+:
        substitute_variables (strL "\x7b\x7bB\x7b\x7bA\x7d\x7d\x7d\x7d") [(strL "A", strL "X")] := by
  decide

/-- Claim C5 (amended, for brace-free keys — the identifier-like `NAME`s the
placeholder grammar uses): each key's pass replaces every occurrence of that
key's placeholder in its input, literally and non-regex — the pass is exactly
the greedy decomposition of its input at the placeholder (which reconstructs
the input and whose segments are placeholder-free) re-joined with the value;
and a placeholder of any brace-free key absent from the mapping that occurs
in `T` still occurs verbatim in the final output. -/
theorem substitution_correctness_bracefree :
    (∀ pat rep s : List Char, pat ≠ [] →
      (replaceAll pat rep s = pyJoin rep (splitOnL pat s) ∧
       pyJoin pat (splitOnL pat s) = s ∧
       ∀ seg ∈ splitOnL pat s, ¬ pat <:+: seg)) ∧
    (∀ (M : List (List Char × List Char)) (T C : List Char),
      braceFree C → (∀ kv ∈ M, braceFree kv.1 ∧ kv.1 ≠ C) →
      placeholder C <:+: T → placeholder C <:+: substitute_variables T M) := by
  constructor
  · intro pat rep s hp
    refine ⟨?_, pyJoin_splitOnAux s.length pat s,
      splitOnAux_no_pat s.length pat s hp (Nat.le_refl _)⟩
    rw [replaceAll, if_neg hp, splitOnL, replaceAllAux_eq_join]
  · exact substitute_preserves_absent

/-- Witness for C5 (amended): a concrete single pass decomposed and re-joined,
and a concrete absent brace-free placeholder surviving substitution. -/
theorem substitution_correctness_bracefree_witness :
    (replaceAll (strL "ab") (strL "X") (strL "cabab") =
        pyJoin (strL "X") (splitOnL (strL "ab") (strL "cabab")) ∧
      pyJoin (strL "ab") (splitOnL (strL "ab") (strL "cabab")) = strL "cabab" ∧
      ∀ seg ∈ splitOnL (strL "ab") (strL "cabab"), ¬ strL "ab" <:+: seg) ∧
    placeholder (strL "B") <:+:
      substitute_variables (strL "\x7b\x7bB\x7d\x7d\x7b\x7bA\x7d\x7d") [(strL "A", strL "X")] :=
  ⟨substitution_correctness_bracefree.1 (strL "ab") (strL "X") (strL "cabab") (by decide),
   substitution_correctness_bracefree.2 [(strL "A", strL "X")]
     (strL "\x7b\x7bB\x7d\x7d\x7b\x7bA\x7d\x7d") (strL "B") (by decide) (by decide) (by decide)⟩

/-- Claim C6 (the code, not the claim, is at fault): assembly is NOT
failure-free for every store state.  A present-but-empty specialization
record (`yaml.safe_load` returns `None`) makes `spec_data.get` raise
`AttributeError` inside `assemble_worker_dna`, contradicting the documented
best-effort policy that every lookup degrades to a default. -/
theorem empty_specialization_record_raises :
    assemble_worker_dna (fun _ => none) nullStore [] (strL "memory") =
      Except.error PyErr.attributeError := rfl

/-- Claim C7: every assembled document — queen, architect, and any worker
document that is produced — ends with the identical fixed protocol-reference
closing text, verbatim. -/
theorem closing_section_invariant :
    (∀ (store : FragStore) (ts : List Char), protocolRef <:+ assemble_queen_dna store ts) ∧
    (∀ (store : FragStore) (ts : List Char), protocolRef <:+ assemble_architect_dna store ts) ∧
    (∀ (store : FragStore) (specStore : SpecStore) (ts spec d : List Char),
      assemble_worker_dna store specStore ts spec = Except.ok d → protocolRef <:+ d) := by
  refine ⟨fun store ts => protocol_suffix store _ _,
    fun store ts => protocol_suffix store _ _, ?_⟩
  intro store specStore ts spec d h
  obtain ⟨v, _, hd⟩ := worker_ok_shape store specStore ts spec d h
  rw [hd]
  exact protocol_suffix store _ _

/-- Witness for C7: the worker clause applied to a concrete produced
document. -/
theorem closing_section_invariant_witness :
    protocolRef <:+ wgDoc (fun _ => none) [] :=
  closing_section_invariant.2.2 (fun _ => none) (fun _ => none) [] (strL "general")
    (wgDoc (fun _ => none) []) rfl

/-- Claim C8: a specialization absent from the Specialization Store assembles
with `description = "general implementation"` and empty strings for the
details, focus-areas and key-patterns variables. -/
theorem absent_specialization_defaults :
    ∀ (store : FragStore) (specStore : SpecStore) (ts name : List Char),
      name ≠ strL "general" → specStore name = none →
      assemble_worker_dna store specStore ts name =
        Except.ok (_assemble_dna store (workerComponents name)
          (workerVariables name ts (strL "general implementation") [] [] [])) := by
  intro store specStore ts name h1 h2
  unfold assemble_worker_dna
  rw [workerSpecData, if_neg h1, load_specialization, h2]
  rfl

/-- Witness for C8: the default fallback at a concrete absent name. -/
theorem absent_specialization_defaults_witness :
    assemble_worker_dna (fun _ => none) (fun _ => none) [] (strL "memory") =
      Except.ok (_assemble_dna (fun _ => none) (workerComponents (strL "memory"))
        (workerVariables (strL "memory") [] (strL "general implementation") [] [] [])) :=
  absent_specialization_defaults (fun _ => none) (fun _ => none) [] (strL "memory")
    (by decide) rfl

/-- Claim C9: removing (or, equivalently, emptying) one named fragment from
the Fragment Store changes an assembled document exactly as if that
component name had been dropped from the component list: the remaining
fragments keep their content and relative order and the closing section is
unchanged.  Stated for the composer and for each of the three roles. -/
theorem fragment_omission_tolerance :
    (∀ (store : FragStore) (name : List Char) (comps : List (List Char))
        (vars : List (List Char × List Char)),
        _assemble_dna (removeFrag store name) comps vars =
          _assemble_dna store (comps.filter (fun c => !(c = name : Bool))) vars) ∧
    (∀ (store : FragStore) (name ts : List Char),
        assemble_queen_dna (removeFrag store name) ts =
          _assemble_dna store (queenComponents.filter (fun c => !(c = name : Bool)))
            (queenVariables ts)) ∧
    (∀ (store : FragStore) (name ts : List Char),
        assemble_architect_dna (removeFrag store name) ts =
          _assemble_dna store (architectComponents.filter (fun c => !(c = name : Bool)))
            (architectVariables ts)) ∧
    (∀ (store : FragStore) (specStore : SpecStore) (name ts spec : List Char),
        assemble_worker_dna (removeFrag store name) specStore ts spec =
          (specValues (workerSpecData specStore spec)).map
            (fun v => _assemble_dna store
              ((workerComponents spec).filter (fun c => !(c = name : Bool)))
              (workerVariables spec ts v.1 v.2.1 v.2.2.1 v.2.2.2))) := by
  refine ⟨assemble_dna_remove, fun store name ts => assemble_dna_remove store name _ _,
    fun store name ts => assemble_dna_remove store name _ _, ?_⟩
  intro store specStore name ts spec
  unfold assemble_worker_dna
  cases hsv : specValues (workerSpecData specStore spec) with
  | error e => simp [hsv, Except.map]
  | ok v => simp [hsv, Except.map, assemble_dna_remove]

/-- Claim C10: assembling the worker document for `"general"` never consults
the Specialization Store (any two stores give the same result), and when the
enumeration of specialization files contains `"general"` — i.e. a record
named `general` exists — the Batch Driver writes the `worker-general.md`
document (with the same default-valued content) at least twice. -/
theorem general_worker_ignores_store :
    (∀ (store : FragStore) (s1 s2 : SpecStore) (ts : List Char),
        assemble_worker_dna store s1 ts (strL "general") =
          assemble_worker_dna store s2 ts (strL "general")) ∧
    (∀ (store : FragStore) (specStore : SpecStore) (names : List (List Char))
        (ts : List Char) (writeOk : List Char → Bool),
        (∀ f, writeOk f = true) →
        (∀ n ∈ names, ∃ r, workerSpecData specStore n = Yaml.dict r) →
        strL "general" ∈ names →
        2 ≤ ((assemble_all store specStore names ts writeOk).1.count
            (strL "worker-general.md", wgDoc store ts))) := by
  constructor
  · intro store s1 s2 ts
    rfl
  · intro store specStore names ts writeOk hW hd hg
    have e1 := save_dna_ok writeOk (strL "queen") none (assemble_queen_dna store ts) (hW _)
    have e2 := save_dna_ok writeOk (strL "architect") none (assemble_architect_dna store ts) (hW _)
    have e3 := worker_general_ok store specStore ts
    have e4 := save_dna_ok writeOk (strL "worker") (some (strL "general")) (wgDoc store ts) (hW _)
    have hsw := specWorkers_general store specStore ts writeOk hW names hd
    cases hns : assembleSpecWorkers store specStore ts writeOk names with
    | mk rest err =>
      rw [hns] at hsw
      have hred : assemble_all store specStore names ts writeOk =
          ((dnaFilename (strL "queen") none, assemble_queen_dna store ts) ::
           (dnaFilename (strL "architect") none, assemble_architect_dna store ts) ::
           (strL "worker-general.md", wgDoc store ts) :: rest, err) := by
        simp only [assemble_all, e1, e2, e3, e4, hns, dnaFilename_worker_general]
      rw [hred]
      have hmem : (strL "worker-general.md", wgDoc store ts) ∈ rest := hsw.2 hg
      have h1 : 1 ≤ rest.count (strL "worker-general.md", wgDoc store ts) :=
        List.count_pos_iff.mpr hmem
      rw [List.count_cons, List.count_cons, List.count_cons_self]
      omega

/-- Witness for C10: a store with an existing, attribute-bearing `general`
record; the batch writes `worker-general.md` twice with the default-valued
content. -/
theorem general_worker_ignores_store_witness :
    2 ≤ ((assemble_all (fun _ => none)
          (fun n => if n = strL "general"
            then some (Yaml.dict [(strL "description", strL "custom")]) else none)
          [strL "general"] [] (fun _ => true)).1.count
          (strL "worker-general.md", wgDoc (fun _ => none) [])) :=
  general_worker_ignores_store.2 (fun _ => none)
    (fun n => if n = strL "general"
      then some (Yaml.dict [(strL "description", strL "custom")]) else none)
    [strL "general"] [] (fun _ => true) (fun _ => rfl)
    (fun n hn => by
      simp only [List.mem_singleton] at hn
      subst hn
      exact ⟨[], rfl⟩)
    (by simp)
